/-
Verification of the routegraphs BGP route-analysis tool.

This file gives a shallow embedding, in Lean 4, of the parts of the
repository that the verified properties talk about:

  * routegraphs.py : get_path, get_most_specific_prefix,
    asn_paths_to_prefix (dn42 algorithm, exact phase and recursive
    fallback phase), asns_paths_to_prefix
  * roacheck.py    : check_roa
  * mrt2sql.py     : unpack_cidr, parse_mrt (Paths / NeighbourASNs
    ingestion), parse_roa (max-length defaulting)
  * app.py         : get_graph argument validation

SQLite tables are modelled as Lean lists of row structures; SQL
queries become filters/folds over those lists.  BLOB values (packed
IP addresses) are lists of byte values compared with memcmp order,
exactly as SQLite compares BLOBs.  Machine integers in the sources are
unbounded Python ints, so Nat/Int model them directly.
-/
import Mathlib

namespace Routegraphs

/-- An autonomous-system number (Python int). -/
abbrev ASN := Nat

/-- A binary blob: a list of byte values, as stored by SQLite for
packed IP addresses. -/
abbrev Bytes := List Nat

/-- Big-endian packing of an integer into `w` bytes; models
`socket.inet_pton` output / `int.to_bytes(w, 'big')` in
`mrt2sql.unpack_cidr`. -/
def packBytes : Nat → Nat → Bytes
  | 0, _ => []
  | w + 1, v => packBytes w (v / 256) ++ [v % 256]

/-- SQLite BLOB comparison (`memcmp`; a strict prefix sorts first):
`blobLe a b` is true iff blob `a <= b` in SQLite ordering. -/
def blobLe : Bytes → Bytes → Bool
  | [], _ => true
  | _ :: _, [] => false
  | x :: xs, y :: ys => if x < y then true else if y < x then false else blobLe xs ys

/-- A parsed CIDR, the result of `ipaddress.ip_network(..., strict=False)`
(routegraphs.py) or of splitting a `network/length` string
(`mrt2sql.unpack_cidr`): address family, network address as an integer,
and the length. -/
structure CIDR where
  v6 : Bool
  addr : Nat
  len : Nat
  deriving Repr, DecidableEq

/-- Address width in bits (`ip_bits` in `unpack_cidr`). -/
def ipBits (c : CIDR) : Nat := if c.v6 then 128 else 32

/-- Packed-address width in bytes (`datalength` in
`get_most_specific_prefix`). -/
def byteLen (c : CIDR) : Nat := if c.v6 then 16 else 4

/-- `ipn.num_addresses` for the parsed network. -/
def numAddresses (c : CIDR) : Nat := 2 ^ (ipBits c - c.len)

/-- `ipn.network_address.packed`. -/
def networkBytes (c : CIDR) : Bytes := packBytes (byteLen c) c.addr

/-- Broadcast address as an integer:
`int.from_bytes(network) | ((1 << (ip_bits - prefix_length)) - 1)`
(`mrt2sql.unpack_cidr`). -/
def broadcastNat (c : CIDR) : Nat := c.addr ||| (2 ^ (ipBits c - c.len) - 1)

/-- `broadcast_address.to_bytes(ip_bits // 8, 'big')`. -/
def broadcastBytes (c : CIDR) : Bytes := packBytes (byteLen c) (broadcastNat c)

/-! ## ROA entries (roacheck.py / mrt2sql.parse_roa) -/

/-- A row of the `ROAEntries` table, in the column order of
`mrt2sql.parse_roa`'s INSERT:
`(network, length, broadcast_address, asn, max_length)`. -/
structure ROAEntry where
  network : Bytes
  length : Nat
  broadcast : Bytes
  asn : ASN
  maxLength : Nat
  deriving Repr, DecidableEq

/-- The WHERE clause of `roacheck.check_roa`:
`network <= ? AND broadcast_address >= ? AND asn == ? AND max_length >= ?`
with the parameters unpacked from the target CIDR. -/
def roaMatches (c : CIDR) (asn : ASN) (e : ROAEntry) : Bool :=
  blobLe e.network (networkBytes c) && blobLe (broadcastBytes c) e.broadcast
    && (e.asn == asn) && (c.len ≤ e.maxLength)

/-- `roacheck.check_roa`: the list of ROA rows matching the query.
(`SELECT DISTINCT ... ORDER BY length DESC` only deduplicates and
reorders rows, which does not affect whether the result is empty, the
only thing callers test; the model keeps the raw filtered rows.) -/
def check_roa (entries : List ROAEntry) (c : CIDR) (asn : ASN) : List ROAEntry :=
  entries.filter (roaMatches c asn)

/-! ## parse_roa max-length defaulting (mrt2sql.py) -/

/-- `_DEFAULT_V4_MAX_LENGTH = 29`, `_DEFAULT_V6_MAX_LENGTH = 64`;
selected by `':' in cidr`. -/
def defaultMaxLength (v6 : Bool) : Nat := if v6 then 64 else 29

/-- One ROA registry object handed to `mrt2sql.parse_roa`: the CIDR
parsed from the file name and the relevant registry fields
(`origin` as a list of ASNs, optional `max-length`). -/
structure ROAObject where
  cidr : CIDR
  origins : List ASN
  maxLenField : Option Nat
  deriving Repr

/-- The `max_length` value stored by `parse_roa`:
`max_length = int(roa_fields.get('max-length', default_max_length))`
then `max_length = max(prefix_length, max_length)`. -/
def roaStoredMaxLength (o : ROAObject) : Nat :=
  max o.cidr.len (o.maxLenField.getD (defaultMaxLength o.cidr.v6))

/-- The ROA rows inserted by `parse_roa` for one registry object:
one row per ASN in the `origin` field, all sharing the object's
prefix and computed max length. -/
def parse_roa_entries (o : ROAObject) : List ROAEntry :=
  o.origins.map (fun asn =>
    ⟨networkBytes o.cidr, o.cidr.len, broadcastBytes o.cidr, asn, roaStoredMaxLength o⟩)

/-! ## Prefix resolution (routegraphs.get_most_specific_prefix) -/

/-- A row of the `Prefixes` table, in the column order of
`mrt2sql.parse_mrt`'s INSERT (the `unpack_cidr` triple):
`(network, length, broadcast_address)`. -/
structure PfxRow where
  network : Bytes
  length : Nat
  broadcast : Bytes
  deriving Repr, DecidableEq

/-- The stored `Prefixes` table. -/
structure PfxDB where
  prefixes : List PfxRow
  deriving Repr

/-- The WHERE clause of the single-address branch of
`get_most_specific_prefix`:
`network<=? AND broadcast_address>=? AND length(network)==?`
with both parameters bound to `ip.packed`. -/
def addrRowMatches (c : CIDR) (p : PfxRow) : Bool :=
  blobLe p.network (networkBytes c) && blobLe (networkBytes c) p.broadcast
    && (p.network.length == byteLen c)

/-- The filtered rows of the single-address lookup, in table order. -/
def addrMatches (db : PfxDB) (c : CIDR) : List PfxRow :=
  db.prefixes.filter (addrRowMatches c)

/-- `ORDER BY length DESC` followed by `fetchone()`: some row of
maximal `length` (SQLite leaves the order of ties unspecified; the
model keeps the earliest of the longest rows). -/
def firstMaxLen : List PfxRow → Option PfxRow
  | [] => none
  | r :: rs =>
    match firstMaxLen rs with
    | none => some r
    | some b => if r.length < b.length then some b else some r

/-- The verbatim-existence test of the CIDR branch:
`SELECT * FROM Prefixes WHERE network==? AND length==?`. -/
def pfxExists (db : PfxDB) (c : CIDR) : Bool :=
  db.prefixes.any (fun p => p.network == networkBytes c && p.length == c.len)

/-- `routegraphs.get_most_specific_prefix`.  The input is the already
parsed `ipaddress.ip_network(prefix_or_ip, strict=False)` value; the
result is the resolved `(network, length)` pair, or `none` where the
Python code raises `ValueError` (prefix/route not found). -/
def getMostSpecificPfx (db : PfxDB) (c : CIDR) : Option (Bytes × Nat) :=
  if numAddresses c = 1 then
    match firstMaxLen (addrMatches db c) with
    | none => none
    | some r => some (r.network, r.length)
  else
    if pfxExists db c then some (networkBytes c, c.len) else none

/-! ## Path resolution (routegraphs.py, dn42 algorithm) -/

/-- A row of the `NeighbourASNs` table: `(receiver_asn, sender_asn,
transit)`, meaning `receiver` learned a route from `sender`. -/
structure NeighbourRow where
  receiver : ASN
  sender : ASN
  transit : Bool
  deriving Repr, DecidableEq

/-- The read-back view of one `PrefixPaths` association joined with
the `Paths` table: the prefix key and the ordered AS-path hops that
`get_path` returns for the associated `path_id`. -/
structure PPRow where
  network : Bytes
  length : Nat
  hops : List ASN
  deriving Repr, DecidableEq

/-- The store as seen by `asn_paths_to_prefix`. -/
structure RouteDB where
  prefixPaths : List PPRow
  neighbours : List NeighbourRow
  deriving Repr

/-- The collector-path query of `asn_paths_to_prefix` (the INNER JOIN
of `Paths` and `PrefixPaths` filtered on `asn==? AND prefix_network==?
AND prefix_length==?`), with each returned `path_id` already read back
through `get_path`: the stored hop lists associated with the prefix
that contain `asn` as a hop.  (If `asn` occurs twice in one path the
SQL join returns its `path_id` twice; the duplicate adds the same
element to the candidate set, so the model keeps one occurrence.) -/
def collectorPaths (db : RouteDB) (net : Bytes) (plen : Nat) (asn : ASN) : List (List ASN) :=
  (db.prefixPaths.filter
    (fun r => r.network == net && r.length == plen && r.hops.contains asn)).map (·.hops)

/-- The truncation done by `get_path`:
`if start_asn in path: path = path[path.index(start_asn):]`. -/
def truncateFrom (a : ASN) (p : List ASN) : List ASN :=
  if a ∈ p then p.drop (p.indexOf a) else p

/-- `n <= minlen` where `minlen` may be `float('inf')` (`none`). -/
def optLE (n : Nat) : Option Nat → Bool
  | none => true
  | some m => n ≤ m

/-- `min(minlen, n)` where `minlen` may be `float('inf')` (`none`). -/
def optMinN (n : Nat) : Option Nat → Option Nat
  | none => some n
  | some m => some (min m n)

/-- Accumulator of the exact-phase loop of `asn_paths_to_prefix`:
`minlen` and the `candidate_paths` buckets, the latter flattened to
`(bucket length, path)` pairs. -/
structure ExactAcc where
  minlen : Option Nat
  cands : List (Nat × List ASN)
  deriving Repr, DecidableEq

/-- One iteration of the exact-phase loop:
```
path = get_path(dbconn, collector_path_id, start_asn=asn)
if len(path) <= minlen:
    candidate_paths[len(path)].add(path)
minlen = min(minlen, len(path))
``` -/
def exactStep (asn : ASN) (acc : ExactAcc) (raw : List ASN) : ExactAcc :=
  let q := truncateFrom asn raw
  let acc1 :=
    if optLE q.length acc.minlen then
      { acc with cands := acc.cands ++ [(q.length, q)] }
    else acc
  { acc1 with minlen := optMinN q.length acc1.minlen }

/-- The whole exact-phase loop over the collector paths. -/
def exactScan (asn : ASN) (paths : List (List ASN)) : ExactAcc :=
  paths.foldl (exactStep asn) ⟨none, []⟩

/-- `candidate_paths[minlen]`: the bucket at the current minimum
(`defaultdict` yields the empty set when `minlen` is still infinite). -/
def bucketOf (minlen : Option Nat) (cands : List (Nat × List ASN)) : List (List ASN) :=
  match minlen with
  | none => []
  | some m => (cands.filter (fun c => c.1 == m)).map (·.2)

/-- The set of paths the exact phase of `asn_paths_to_prefix` returns
when it finds collector data. -/
def exactPhasePaths (db : RouteDB) (net : Bytes) (plen : Nat) (asn : ASN) : List (List ASN) :=
  let acc := exactScan asn (collectorPaths db net plen asn)
  bucketOf acc.minlen acc.cands

/-- `_MAX_SEEN_ASNS = 50`. -/
def maxSeenAsns : Nat := 50

/-- The transit-upstream guess query of the dn42 fallback:
`SELECT receiver_asn FROM NeighbourASNs WHERE sender_asn=?`. -/
def possibleTransits (db : RouteDB) (asn : ASN) : List ASN :=
  (db.neighbours.filter (fun r => r.sender == asn)).map (·.receiver)

/-- `PathsToPrefixResult` without the prefix field (which the claims
do not touch): the path set and the guessed-upstream set, both as
lists. -/
structure PResult where
  paths : List (List ASN)
  guessed : List ASN
  deriving Repr, DecidableEq

/-- State of the fallback loop over `possible_transits`: `minlen`,
the `candidate_paths` buckets and `guessed_upstreams`. -/
structure FBAcc where
  minlen : Option Nat
  cands : List (Nat × List ASN)
  guessed : List ASN
  deriving Repr, DecidableEq

/-- The fallback loop body of `asn_paths_to_prefix`:
```
for upstream in possible_transits:
    if upstream not in seen_asns:
        recur_result = asn_paths_to_prefix(..., upstream, seen_asns=next_seen_asns)
        recur_result.paths = {(asn, *path) for path in recur_result.paths}
        if recur_result.paths:
            recur_path_len = len(next(iter(recur_result.paths)))
            if recur_path_len <= minlen:
                candidate_paths[recur_path_len] |= recur_result.paths
            minlen = min(minlen, recur_path_len)
            guessed_upstreams |= recur_result.guessed_upstreams
```
The recursive call is abstracted as `rec`; `none` models the fuelled
recursion running out of fuel (it never does, see
`dn42_fallback_terminates`).

Below, `fbStep` is the update applied to one recursive result:
prepend the current ASN to every returned path
(`{(asn, *path) for path in recur_result.paths}`); when the resulting
set is non-empty, take the length of one member
(`len(next(iter(recur_result.paths)))` — a returned set holds paths of
a single length, so the model takes the first), bucket the paths when
no longer than the current minimum, lower the minimum, and merge the
guessed-upstream sets. -/
def fbStep (asn : ASN) (acc : FBAcc) (r : PResult) : FBAcc :=
  match r.paths with
  | [] => acc
  | p :: _ =>
    let rl := p.length + 1
    let acc1 :=
      if optLE rl acc.minlen then
        { acc with cands := acc.cands ++ r.paths.map (fun q => (rl, asn :: q)) }
      else acc
    { acc1 with minlen := optMinN rl acc1.minlen,
                guessed := acc1.guessed ++ r.guessed }

def fbLoop (rec : ASN → Finset ASN → Option PResult) (asn : ASN)
    (seen nextSeen : Finset ASN) : List ASN → FBAcc → Option FBAcc
  | [], acc => some acc
  | u :: rest, acc =>
    if u ∈ seen then fbLoop rec asn seen nextSeen rest acc
    else
      match rec u nextSeen with
      | none => none
      | some r => fbLoop rec asn seen nextSeen rest (fbStep asn acc r)

/-- One unfolding of `asn_paths_to_prefix` for the dn42 algorithm,
with the recursive call abstracted as `rec`.  The exact branch fires
iff `minlen != float('inf')`; otherwise the fallback guesses transit
upstreams, bounded by `_MAX_SEEN_ASNS`. -/
def asnStep (db : RouteDB) (net : Bytes) (plen : Nat)
    (rec : ASN → Finset ASN → Option PResult) (asn : ASN) (seen : Finset ASN) :
    Option PResult :=
  match (exactScan asn (collectorPaths db net plen asn)).minlen with
  | some _ =>
    some ⟨bucketOf (exactScan asn (collectorPaths db net plen asn)).minlen
            (exactScan asn (collectorPaths db net plen asn)).cands, []⟩
  | none =>
    if seen.card ≤ maxSeenAsns then
      match fbLoop rec asn seen (seen ∪ (possibleTransits db asn).toFinset ∪ {asn})
          (possibleTransits db asn) ⟨none, [], [asn]⟩ with
      | none => none
      | some fb => some ⟨bucketOf fb.minlen fb.cands, fb.guessed⟩
    else
      some ⟨[], [asn]⟩

/-- `asn_paths_to_prefix(dbconn, prefix, asn, AdjacencyAlgorithm.dn42,
seen_asns)` as a fuelled function.  The Python function recurses
directly; the fuel makes the same computation structurally recursive,
and `dn42_fallback_terminates` shows fuel `_MAX_SEEN_ASNS + 2` always
suffices, which is the termination claim. -/
def asnPathsToPfx (db : RouteDB) (net : Bytes) (plen : Nat) :
    Nat → ASN → Finset ASN → Option PResult
  | 0, _, _ => none
  | fuel + 1, asn, seen => asnStep db net plen (asnPathsToPfx db net plen fuel) asn seen

/-- `asns_paths_to_prefix`: per-source resolution merged by set
union (`summary.paths |= ...; summary.guessed_upstreams |= ...`). -/
def asnsPathsToPfx (db : RouteDB) (net : Bytes) (plen : Nat) (sources : List ASN) :
    Option PResult :=
  sources.foldl
    (fun st a =>
      match st, asnPathsToPfx db net plen (maxSeenAsns + 2) a ∅ with
      | some acc, some r => some ⟨acc.paths ++ r.paths, acc.guessed ++ r.guessed⟩
      | _, _ => none)
    (some ⟨[], []⟩)

/-! ## The web query entry point (app.py get_graph) -/

/-- The source-ASN validation of `app.get_graph`:
```
asns = flask.request.args.getlist('asn')
if not asns:
    raise ValueError('No source ASNs specified')
try:
    asns = list(map(int, asns))
except ValueError as e:
    raise ValueError(f'Invalid ASN in request: ...') from e
``` -/
def getGraphValidate (asnArgs : List String) : Except String (List ASN) :=
  if asnArgs.isEmpty then Except.error "No source ASNs specified"
  else
    match asnArgs.mapM String.toNat? with
    | some asns => Except.ok asns
    | none => Except.error "Invalid ASN in request"

/-- `app.get_graph`'s resolution path: validate the source ASNs, then
run the backend resolution.  The validation error is raised before the
backend is consulted, so an invalid request never touches the store. -/
def getGraph (db : RouteDB) (net : Bytes) (plen : Nat) (asnArgs : List String) :
    Except String PResult :=
  match getGraphValidate asnArgs with
  | Except.error e => Except.error e
  | Except.ok asns =>
    match asnsPathsToPfx db net plen asns with
    | some r => Except.ok r
    | none => Except.error "resolution failed"

/-! ## Adjacency / transit ingestion (mrt2sql.parse_mrt) -/

/-- Consecutive hop pairs `(as_path[path_index-1], as_path[path_index])`
for `path_index = 1, ...` of one AS-path. -/
def hopPairs (p : List ASN) : List (ASN × ASN) := p.zip p.tail

/-- Modelled from the spec: the repository's `dbinit.sql` (the table
schema) is not under `src/`; per §3 the `NeighbourASNs` table is keyed
on the `(receiver, sender)` pair and the `transit` flag defaults to
false, so `INSERT OR IGNORE INTO NeighbourASNs(receiver_asn,
sender_asn)` appends a `(receiver, sender, false)` row unless one with
the same key exists. -/
def insertNeighbour (t : List NeighbourRow) (x y : ASN) : List NeighbourRow :=
  if t.any (fun r => r.receiver == x && r.sender == y) then t
  else t ++ [⟨x, y, false⟩]

/-- `UPDATE NeighbourASNs SET transit=1 WHERE receiver_asn==? AND
sender_asn==?`. -/
def setTransit (t : List NeighbourRow) (x y : ASN) : List NeighbourRow :=
  t.map (fun r => if r.receiver == x && r.sender == y then ⟨x, y, true⟩ else r)

/-- Processing of one consecutive hop pair in `parse_mrt`:
skip self-loops, upsert the adjacency, and mark it transit when the
current hop is not the path's origin (`if as_path[-1] != asn`). -/
def ingestHop (origin : ASN) (t : List NeighbourRow) (pr : ASN × ASN) : List NeighbourRow :=
  if pr.1 = pr.2 then t
  else
    let t1 := insertNeighbour t pr.1 pr.2
    if origin ≠ pr.2 then setTransit t1 pr.1 pr.2 else t1

/-- The adjacency-related effect of ingesting one announcement's
AS-path in `parse_mrt`. -/
def ingestPathAdj (t : List NeighbourRow) (p : List ASN) : List NeighbourRow :=
  (hopPairs p).foldl (ingestHop (p.getLastD 0)) t

/-- Ingesting a finite sequence of announcement AS-paths into an
initially empty `NeighbourASNs` table. -/
def ingestAllAdj (ps : List (List ASN)) : List NeighbourRow :=
  ps.foldl ingestPathAdj []

/-- An adjacency row `(x, y)` exists. -/
def adjacencyExists (t : List NeighbourRow) (x y : ASN) : Prop :=
  ∃ r ∈ t, r.receiver = x ∧ r.sender = y

/-- The adjacency row `(x, y)` exists with its transit flag set. -/
def transitTrue (t : List NeighbourRow) (x y : ASN) : Prop :=
  ∃ r ∈ t, r.receiver = x ∧ r.sender = y ∧ r.transit = true

instance (t : List NeighbourRow) (x y : ASN) : Decidable (adjacencyExists t x y) := by
  unfold adjacencyExists; infer_instance

instance (t : List NeighbourRow) (x y : ASN) : Decidable (transitTrue t x y) := by
  unfold transitTrue; infer_instance

/-! ## AS-path storage and read-back (mrt2sql.parse_mrt / get_path) -/

/-- A row of the `Paths` table: `(path_id, list_index, asn)`. -/
structure PathRow where
  pathId : Int
  listIndex : Nat
  asn : ASN
  deriving Repr, DecidableEq

/-- A `Paths` row with the key `(path_id, list_index)` exists. -/
def hasKey (t : List PathRow) (pid : Int) (i : Nat) : Bool :=
  t.any (fun r => r.pathId == pid && r.listIndex == i)

/-- Modelled from the spec: `dbinit.sql` is not under `src/`; per §3
an AS-Path keeps "per-hop (index, ASN) entries", so the `Paths` table
is keyed on `(path_id, list_index)` and `INSERT OR IGNORE` appends a
row unless one with the same key exists. -/
def insertPathRow (t : List PathRow) (pid : Int) (i : Nat) (a : ASN) : List PathRow :=
  if hasKey t pid i then t else t ++ [⟨pid, i, a⟩]

/-- The hop-insertion loop of `parse_mrt`:
`for path_index, asn in enumerate(as_path): INSERT OR IGNORE INTO
Paths VALUES(path_id, path_index, asn)`, starting at index `i`. -/
def insertHops (pid : Int) : List PathRow → Nat → List ASN → List PathRow
  | t, _, [] => t
  | t, i, a :: rest => insertHops pid (insertPathRow t pid i a) (i + 1) rest

/-- The `Paths`-table effect of ingesting one announcement whose
AS-path is `s`, with `path_id = hash(as_path)` for a content hash
`h`.  (Python's builtin `hash` is runtime-provided and not under
`src/`; it is modelled as an arbitrary function of the hop list.) -/
def ingestPathRows (h : List ASN → Int) (t : List PathRow) (s : List ASN) : List PathRow :=
  insertHops (h s) t 0 s

/-- Ingesting a finite sequence of announcement AS-paths into an
initially empty `Paths` table. -/
def ingestAllPaths (h : List ASN → Int) (ss : List (List ASN)) : List PathRow :=
  ss.foldl (ingestPathRows h) []

/-- The rows of the `Paths` table with the given `path_id`
(`WHERE path_id==?`), in table order. -/
def rowsFor (t : List PathRow) (pid : Int) : List PathRow :=
  t.filter (fun r => r.pathId == pid)

/-- Insertion into a list sorted by `list_index`. -/
def insertSorted (r : PathRow) : List PathRow → List PathRow
  | [] => [r]
  | x :: xs => if r.listIndex ≤ x.listIndex then r :: x :: xs else x :: insertSorted r xs

/-- `ORDER BY list_index`: a stable sort on `list_index`. -/
def sortByIndex : List PathRow → List PathRow
  | [] => []
  | x :: xs => insertSorted x (sortByIndex xs)

/-- `routegraphs.get_path`: read the hops of one stored AS-path in
`list_index` order and truncate at `start_asn` when present. -/
def get_path (t : List PathRow) (pid : Int) (start : Option ASN) : List ASN :=
  let path := (sortByIndex (rowsFor t pid)).map (·.asn)
  match start with
  | none => path
  | some a => truncateFrom a path

/-- The expected rows for sequence `s` stored under `pid` with hop
indices starting at `i`. -/
def hopRows (pid : Int) : Nat → List ASN → List PathRow
  | _, [] => []
  | i, a :: rest => ⟨pid, i, a⟩ :: hopRows pid (i + 1) rest

/-! # Theorems -/

/-! ## C3: check_roa -/

/-- C3: for every prefix CIDR `P` and ASN `A`, `check_roa(dbconn, P, A)`
returns a non-empty (truthy) result if and only if some stored ROA
entry has network address ≤ `P`'s network address, broadcast address ≥
`P`'s broadcast address, authorized ASN equal to `A`, and `max_length`
≥ `P`'s prefix length; one such entry is sufficient. -/
theorem check_roa_nonempty_iff (entries : List ROAEntry) (c : CIDR) (asn : ASN) :
    check_roa entries c asn ≠ [] ↔
      ∃ e ∈ entries,
        blobLe e.network (networkBytes c) = true ∧
        blobLe (broadcastBytes c) e.broadcast = true ∧
        e.asn = asn ∧ c.len ≤ e.maxLength := by
  rw [check_roa, Ne, List.filter_eq_nil_iff]
  push_neg
  constructor
  · rintro ⟨e, he, hp⟩
    refine ⟨e, he, ?_⟩
    have := by simpa [roaMatches, Bool.and_eq_true, decide_eq_true_eq] using hp
    tauto
  · rintro ⟨e, he, h1, h2, h3, h4⟩
    exact ⟨e, he, by simp [roaMatches, h1, h2, h3, h4]⟩

/-! ## C9: parse_roa default max-length -/

/-- C9: for a ROA registry object ingested without a `max-length`
field, every inserted ROA entry stores `max_length` equal to the
family-specific default (29 for 4-byte, 64 for 16-byte addresses) when
that default is at least the entry's own prefix length, and equal to
the prefix length otherwise; the stored value is never smaller than
the prefix length. -/
theorem parse_roa_default_max_length (o : ROAObject) (h : o.maxLenField = none) :
    ∀ e ∈ parse_roa_entries o,
      e.maxLength =
        (if o.cidr.len ≤ defaultMaxLength o.cidr.v6
         then defaultMaxLength o.cidr.v6 else o.cidr.len) ∧
      o.cidr.len ≤ e.maxLength := by
  intro e he
  simp only [parse_roa_entries, List.mem_map] at he
  obtain ⟨a, -, rfl⟩ := he
  simp only [roaStoredMaxLength, h, Option.getD_none]
  exact ⟨by rw [Nat.max_def], Nat.le_max_left _ _⟩

/-- Example ROA object for the witness: `10.0.0.0/24` with origin
`AS64496` and no `max-length` field. -/
def roaObjEx : ROAObject := ⟨⟨false, 10 * 2 ^ 24, 24⟩, [64496], none⟩

/-- Witness for `parse_roa_default_max_length` at a concrete object:
the v4 default 29 is stored. -/
theorem parse_roa_default_max_length_witness :
    roaObjEx.maxLenField = none ∧
      ∀ e ∈ parse_roa_entries roaObjEx,
        e.maxLength =
          (if roaObjEx.cidr.len ≤ defaultMaxLength roaObjEx.cidr.v6
           then defaultMaxLength roaObjEx.cidr.v6 else roaObjEx.cidr.len) ∧
        roaObjEx.cidr.len ≤ e.maxLength :=
  ⟨rfl, parse_roa_default_max_length roaObjEx rfl⟩

/-! ## C7: empty source-ASN set -/

/-- C7: a resolve query with an empty set of source ASNs returns the
invalid-argument error immediately, for every store and target prefix
— no backend work is attempted. -/
theorem get_graph_empty_asns (db : RouteDB) (net : Bytes) (plen : Nat) :
    getGraph db net plen [] = Except.error "No source ASNs specified" := rfl

/-! ## C5 / C10: get_most_specific_prefix -/

theorem firstMaxLen_ne_none (x : PfxRow) (xs : List PfxRow) :
    firstMaxLen (x :: xs) ≠ none := by
  rw [firstMaxLen]
  cases firstMaxLen xs with
  | none => simp
  | some b => dsimp only; split <;> simp

theorem firstMaxLen_spec (l : List PfxRow) (r : PfxRow) (h : firstMaxLen l = some r) :
    r ∈ l ∧ ∀ q ∈ l, q.length ≤ r.length := by
  induction l generalizing r with
  | nil => simp [firstMaxLen] at h
  | cons x xs ih =>
    rw [firstMaxLen] at h
    cases hx : firstMaxLen xs with
    | none =>
      rw [hx] at h
      injection h with h
      subst h
      have hnil : xs = [] := by
        cases xs with
        | nil => rfl
        | cons y ys => exact absurd hx (firstMaxLen_ne_none y ys)
      subst hnil
      simp
    | some b =>
      rw [hx] at h
      change (if x.length < b.length then some b else some x) = some r at h
      obtain ⟨hbmem, hbmax⟩ := ih b hx
      by_cases hlt : x.length < b.length
      · rw [if_pos hlt] at h
        injection h with h
        subst h
        refine ⟨List.mem_cons_of_mem _ hbmem, ?_⟩
        intro q hq
        rcases List.mem_cons.1 hq with rfl | hq
        · exact Nat.le_of_lt hlt
        · exact hbmax q hq
      · rw [if_neg hlt] at h
        injection h with h
        subst h
        refine ⟨List.mem_cons_self _ _, ?_⟩
        intro q hq
        rcases List.mem_cons.1 hq with rfl | hq
        · exact Nat.le_refl _
        · exact Nat.le_trans (hbmax q hq) (Nat.le_of_not_lt hlt)

/-- A stored `Prefixes` row passes the single-address containment
lookup for the input `c` (range contains the address, same address
family). -/
def containsAddr (p : PfxRow) (c : CIDR) : Prop :=
  blobLe p.network (networkBytes c) = true ∧
  blobLe (networkBytes c) p.broadcast = true ∧
  p.network.length = byteLen c

instance (p : PfxRow) (c : CIDR) : Decidable (containsAddr p c) := by
  unfold containsAddr; infer_instance

theorem addrMatches_mem (db : PfxDB) (c : CIDR) (p : PfxRow) :
    p ∈ addrMatches db c ↔ p ∈ db.prefixes ∧ containsAddr p c := by
  simp [addrMatches, List.mem_filter, addrRowMatches, containsAddr,
    Bool.and_eq_true, and_assoc]

/-- C5 (amended): a single-address input (a bare address, or an
explicit `/32` / `/128` CIDR) resolves by longest-matching containment
in its address family — a not-found error exactly when no stored
prefix contains the address, and otherwise some stored containing
prefix of maximal length; an input covering more than one address
resolves to itself when a `Prefixes` row with exactly that network
address and length exists, and to a not-found error otherwise. -/
theorem getMostSpecificPfx_resolution (db : PfxDB) (c : CIDR) :
    (numAddresses c = 1 →
      ((getMostSpecificPfx db c = none ↔
          ∀ p ∈ db.prefixes, ¬containsAddr p c) ∧
        ∀ net len, getMostSpecificPfx db c = some (net, len) →
          ∃ p ∈ db.prefixes, containsAddr p c ∧ p.network = net ∧ p.length = len ∧
            ∀ q ∈ db.prefixes, containsAddr q c → q.length ≤ len)) ∧
    (numAddresses c ≠ 1 →
      ((∃ p ∈ db.prefixes, p.network = networkBytes c ∧ p.length = c.len) →
          getMostSpecificPfx db c = some (networkBytes c, c.len)) ∧
      ((¬∃ p ∈ db.prefixes, p.network = networkBytes c ∧ p.length = c.len) →
          getMostSpecificPfx db c = none)) := by
  constructor
  · intro h1
    constructor
    · cases hm : firstMaxLen (addrMatches db c) with
      | none =>
        have hnil : addrMatches db c = [] := by
          cases hmm : addrMatches db c with
          | nil => rfl
          | cons y ys => rw [hmm] at hm; exact absurd hm (firstMaxLen_ne_none y ys)
        simp only [getMostSpecificPfx, if_pos h1, hm]
        constructor
        · intro _ p hp hc
          have hpm : p ∈ addrMatches db c := (addrMatches_mem db c p).2 ⟨hp, hc⟩
          rw [hnil] at hpm
          exact absurd hpm (List.not_mem_nil p)
        · intro _; trivial
      | some r =>
        have hr := firstMaxLen_spec _ _ hm
        have hmem := (addrMatches_mem db c r).1 hr.1
        simp only [getMostSpecificPfx, if_pos h1, hm]
        constructor
        · intro hco; exact absurd hco (by simp)
        · intro hall; exact (hall r hmem.1 hmem.2).elim
    · intro net len hres
      cases hm : firstMaxLen (addrMatches db c) with
      | none =>
        rw [getMostSpecificPfx, if_pos h1, hm] at hres
        simp at hres
      | some r =>
        rw [getMostSpecificPfx, if_pos h1, hm] at hres
        have hres' : some (r.network, r.length) = some (net, len) := hres
        injection hres' with hres'
        injection hres' with hn hl
        have hr := firstMaxLen_spec _ _ hm
        have hmem := (addrMatches_mem db c r).1 hr.1
        refine ⟨r, hmem.1, hmem.2, hn, hl, ?_⟩
        intro q hq hqc
        have hql := hr.2 q ((addrMatches_mem db c q).2 ⟨hq, hqc⟩)
        exact hl ▸ hql
  · intro h1
    constructor
    · rintro ⟨p, hp, hn, hl⟩
      have hex : pfxExists db c = true := by
        simp only [pfxExists, List.any_eq_true]
        exact ⟨p, hp, by simp [hn, hl]⟩
      rw [getMostSpecificPfx, if_neg h1, if_pos hex]
    · intro hne
      have hex : ¬pfxExists db c = true := by
        simp only [pfxExists, List.any_eq_true]
        rintro ⟨p, hp, hpe⟩
        simp only [Bool.and_eq_true, beq_iff_eq] at hpe
        exact hne ⟨p, hp, hpe.1, hpe.2⟩
      rw [getMostSpecificPfx, if_neg h1, if_neg hex]

/-- Store with the single prefix `10.0.0.0/24` for the C5
counterexample. -/
def pfxDbEx : PfxDB := ⟨[⟨[10, 0, 0, 0], 24, [10, 0, 0, 255]⟩]⟩

/-- The explicit CIDR `10.0.0.1/32` as parsed by
`ipaddress.ip_network`. -/
def cidr32Ex : CIDR := ⟨false, 10 * 2 ^ 24 + 1, 32⟩

/-- C5 counterexample: the explicit CIDR `10.0.0.1/32` does not exist
verbatim in the store, yet resolution does not fail — it returns the
shorter containing prefix `10.0.0.0/24`, contradicting "an explicit
CIDR ... raises a not-found error otherwise". -/
theorem explicit_cidr_counterexample :
    (¬∃ p ∈ pfxDbEx.prefixes,
        p.network = networkBytes cidr32Ex ∧ p.length = cidr32Ex.len) ∧
    getMostSpecificPfx pfxDbEx cidr32Ex = some ([10, 0, 0, 0], 24) := by
  constructor
  · decide
  · rfl

/-- The explicit CIDR `10.0.0.0/25` (covers more than one address). -/
def cidr25Ex : CIDR := ⟨false, 10 * 2 ^ 24, 25⟩

/-- Witness for `getMostSpecificPfx_resolution` at a concrete input:
`10.0.0.0/25` covers more than one address and is not stored verbatim,
so resolution fails with not-found. -/
theorem getMostSpecificPfx_resolution_witness :
    numAddresses cidr25Ex ≠ 1 ∧ getMostSpecificPfx pfxDbEx cidr25Ex = none :=
  ⟨by decide,
    ((getMostSpecificPfx_resolution pfxDbEx cidr25Ex).2 (by decide)).2 (by decide)⟩

/-- Store with the single prefix `fd42::/48` for the v6 part of C10. -/
def pfxDbEx6 : PfxDB :=
  ⟨[⟨[253, 66, 0, 0, 0, 0, 0, 0, 0, 0, 0, 0, 0, 0, 0, 0], 48,
     [253, 66, 0, 0, 0, 0, 255, 255, 255, 255, 255, 255, 255, 255, 255, 255]⟩]⟩

/-- The explicit CIDR `fd42::5/128`. -/
def cidr128Ex : CIDR := ⟨true, 0xfd42 * 2 ^ 112 + 5, 128⟩

/-- C10: the input counts as a bare address exactly when the parsed
network covers a single address, so explicit `/32` IPv4 and `/128`
IPv6 CIDRs are resolved by longest-matching containment — both
examples resolve to a different, shorter stored prefix even though
they do not exist verbatim in the store. -/
theorem single_address_classification :
    (∀ c : CIDR, c.len ≤ ipBits c → (numAddresses c = 1 ↔ c.len = ipBits c)) ∧
    ((¬∃ p ∈ pfxDbEx.prefixes,
        p.network = networkBytes cidr32Ex ∧ p.length = cidr32Ex.len) ∧
      getMostSpecificPfx pfxDbEx cidr32Ex = some ([10, 0, 0, 0], 24)) ∧
    ((¬∃ p ∈ pfxDbEx6.prefixes,
        p.network = networkBytes cidr128Ex ∧ p.length = cidr128Ex.len) ∧
      getMostSpecificPfx pfxDbEx6 cidr128Ex =
        some ([253, 66, 0, 0, 0, 0, 0, 0, 0, 0, 0, 0, 0, 0, 0, 0], 48)) := by
  refine ⟨?_, ⟨by decide, rfl⟩, ⟨by decide, rfl⟩⟩
  intro c hc
  rw [numAddresses]
  constructor
  · intro h
    by_contra hne
    have h2 : 2 ^ 1 ≤ 2 ^ (ipBits c - c.len) :=
      Nat.pow_le_pow_right (by norm_num) (by omega)
    rw [pow_one] at h2
    omega
  · intro h
    rw [h, Nat.sub_self, pow_zero]

/-- Witness for `single_address_classification` at a concrete input:
`10.0.0.0/25` is not a single address and indeed `25 ≠ 32`. -/
theorem single_address_classification_witness :
    cidr25Ex.len ≤ ipBits cidr25Ex ∧
      (numAddresses cidr25Ex = 1 ↔ cidr25Ex.len = ipBits cidr25Ex) :=
  ⟨by decide, single_address_classification.1 cidr25Ex (by decide)⟩

/-! ## C6: adjacency and transit flags after ingestion -/

theorem adjacencyExists_insert (t : List NeighbourRow) (x y a b : ASN) :
    adjacencyExists (insertNeighbour t a b) x y ↔
      adjacencyExists t x y ∨ (a = x ∧ b = y) := by
  unfold insertNeighbour adjacencyExists
  split
  case isTrue h =>
    simp only [List.any_eq_true, Bool.and_eq_true, beq_iff_eq] at h
    obtain ⟨r, hr, h1, h2⟩ := h
    constructor
    · exact Or.inl
    · rintro (hx | ⟨rfl, rfl⟩)
      · exact hx
      · exact ⟨r, hr, h1, h2⟩
  case isFalse h =>
    constructor
    · rintro ⟨r, hr, h1, h2⟩
      rcases List.mem_append.1 hr with hr | hr
      · exact Or.inl ⟨r, hr, h1, h2⟩
      · rw [List.mem_singleton] at hr
        subst hr
        exact Or.inr ⟨h1, h2⟩
    · rintro (⟨r, hr, h1, h2⟩ | ⟨rfl, rfl⟩)
      · exact ⟨r, List.mem_append_left _ hr, h1, h2⟩
      · exact ⟨⟨a, b, false⟩, List.mem_append_right _ (List.mem_singleton_self _), rfl, rfl⟩

theorem adjacencyExists_setTransit (t : List NeighbourRow) (x y a b : ASN) :
    adjacencyExists (setTransit t a b) x y ↔ adjacencyExists t x y := by
  unfold setTransit adjacencyExists
  constructor
  · rintro ⟨r', hr', h1, h2⟩
    obtain ⟨r, hr, rfl⟩ := List.mem_map.1 hr'
    by_cases hm : (r.receiver == a && r.sender == b) = true
    · rw [if_pos hm] at h1 h2
      simp only [Bool.and_eq_true, beq_iff_eq] at hm
      exact ⟨r, hr, by rw [hm.1]; exact h1, by rw [hm.2]; exact h2⟩
    · rw [if_neg hm] at h1 h2
      exact ⟨r, hr, h1, h2⟩
  · rintro ⟨r, hr, h1, h2⟩
    refine ⟨if r.receiver == a && r.sender == b then ⟨a, b, true⟩ else r,
      List.mem_map.2 ⟨r, hr, rfl⟩, ?_, ?_⟩
    · split
      case isTrue hm =>
        simp only [Bool.and_eq_true, beq_iff_eq] at hm
        rw [← hm.1]; exact h1
      case isFalse => exact h1
    · split
      case isTrue hm =>
        simp only [Bool.and_eq_true, beq_iff_eq] at hm
        rw [← hm.2]; exact h2
      case isFalse => exact h2

theorem transitTrue_insert (t : List NeighbourRow) (x y a b : ASN) :
    transitTrue (insertNeighbour t a b) x y ↔ transitTrue t x y := by
  unfold insertNeighbour transitTrue
  split
  case isTrue => exact Iff.rfl
  case isFalse =>
    constructor
    · rintro ⟨r, hr, h1, h2, h3⟩
      rcases List.mem_append.1 hr with hr | hr
      · exact ⟨r, hr, h1, h2, h3⟩
      · rw [List.mem_singleton] at hr
        subst hr
        exact absurd h3 (by simp)
    · rintro ⟨r, hr, h1, h2, h3⟩
      exact ⟨r, List.mem_append_left _ hr, h1, h2, h3⟩

theorem transitTrue_setTransit (t : List NeighbourRow) (x y a b : ASN) :
    transitTrue (setTransit t a b) x y ↔
      transitTrue t x y ∨ (a = x ∧ b = y ∧ adjacencyExists t a b) := by
  unfold setTransit transitTrue adjacencyExists
  constructor
  · rintro ⟨r', hr', h1, h2, h3⟩
    obtain ⟨r, hr, rfl⟩ := List.mem_map.1 hr'
    by_cases hm : (r.receiver == a && r.sender == b) = true
    · rw [if_pos hm] at h1 h2
      simp only [Bool.and_eq_true, beq_iff_eq] at hm
      exact Or.inr ⟨h1, h2, r, hr, hm.1, hm.2⟩
    · rw [if_neg hm] at h1 h2 h3
      exact Or.inl ⟨r, hr, h1, h2, h3⟩
  · rintro (⟨r, hr, h1, h2, h3⟩ | ⟨rfl, rfl, r, hr, h1, h2⟩)
    · refine ⟨if r.receiver == a && r.sender == b then ⟨a, b, true⟩ else r,
        List.mem_map.2 ⟨r, hr, rfl⟩, ?_, ?_, ?_⟩
      · split
        case isTrue hm =>
          simp only [Bool.and_eq_true, beq_iff_eq] at hm
          rw [← hm.1]; exact h1
        case isFalse => exact h1
      · split
        case isTrue hm =>
          simp only [Bool.and_eq_true, beq_iff_eq] at hm
          rw [← hm.2]; exact h2
        case isFalse => exact h2
      · split
        case isTrue => rfl
        case isFalse => exact h3
    · refine ⟨⟨a, b, true⟩, List.mem_map.2 ⟨r, hr, ?_⟩, rfl, rfl, rfl⟩
      rw [if_pos (by simp [h1, h2])]

theorem adjacencyExists_ingestHop (o : ASN) (t : List NeighbourRow) (pr : ASN × ASN)
    (x y : ASN) :
    adjacencyExists (ingestHop o t pr) x y ↔
      adjacencyExists t x y ∨ (pr.1 = x ∧ pr.2 = y ∧ pr.1 ≠ pr.2) := by
  unfold ingestHop
  by_cases heq : pr.1 = pr.2
  · rw [if_pos heq]
    tauto
  · rw [if_neg heq]
    by_cases ho : o ≠ pr.2
    · rw [if_pos ho, adjacencyExists_setTransit, adjacencyExists_insert]
      tauto
    · rw [if_neg ho, adjacencyExists_insert]
      tauto

theorem transitTrue_ingestHop (o : ASN) (t : List NeighbourRow) (pr : ASN × ASN)
    (x y : ASN) :
    transitTrue (ingestHop o t pr) x y ↔
      transitTrue t x y ∨ (pr.1 = x ∧ pr.2 = y ∧ pr.1 ≠ pr.2 ∧ o ≠ pr.2) := by
  unfold ingestHop
  by_cases heq : pr.1 = pr.2
  · rw [if_pos heq]
    tauto
  · rw [if_neg heq]
    by_cases ho : o ≠ pr.2
    · rw [if_pos ho, transitTrue_setTransit, transitTrue_insert]
      have hadj : adjacencyExists (insertNeighbour t pr.1 pr.2) pr.1 pr.2 :=
        (adjacencyExists_insert t pr.1 pr.2 pr.1 pr.2).2 (Or.inr ⟨rfl, rfl⟩)
      tauto
    · rw [if_neg ho, transitTrue_insert]
      tauto

theorem adjacencyExists_foldHops (o : ASN) (l : List (ASN × ASN))
    (t : List NeighbourRow) (x y : ASN) :
    adjacencyExists (l.foldl (ingestHop o) t) x y ↔
      adjacencyExists t x y ∨ ∃ pr ∈ l, pr.1 = x ∧ pr.2 = y ∧ pr.1 ≠ pr.2 := by
  induction l generalizing t with
  | nil => simp
  | cons pr rest ih =>
    rw [List.foldl_cons, ih, adjacencyExists_ingestHop]
    simp only [List.mem_cons]
    constructor
    · rintro ((h | h) | ⟨q, hq, hp⟩)
      · exact Or.inl h
      · exact Or.inr ⟨pr, Or.inl rfl, h⟩
      · exact Or.inr ⟨q, Or.inr hq, hp⟩
    · rintro (h | ⟨q, hq | hq, hp⟩)
      · exact Or.inl (Or.inl h)
      · subst hq; exact Or.inl (Or.inr hp)
      · exact Or.inr ⟨q, hq, hp⟩

theorem transitTrue_foldHops (o : ASN) (l : List (ASN × ASN))
    (t : List NeighbourRow) (x y : ASN) :
    transitTrue (l.foldl (ingestHop o) t) x y ↔
      transitTrue t x y ∨ ∃ pr ∈ l, pr.1 = x ∧ pr.2 = y ∧ pr.1 ≠ pr.2 ∧ o ≠ pr.2 := by
  induction l generalizing t with
  | nil => simp
  | cons pr rest ih =>
    rw [List.foldl_cons, ih, transitTrue_ingestHop]
    simp only [List.mem_cons]
    constructor
    · rintro ((h | h) | ⟨q, hq, hp⟩)
      · exact Or.inl h
      · exact Or.inr ⟨pr, Or.inl rfl, h⟩
      · exact Or.inr ⟨q, Or.inr hq, hp⟩
    · rintro (h | ⟨q, hq | hq, hp⟩)
      · exact Or.inl (Or.inl h)
      · subst hq; exact Or.inl (Or.inr hp)
      · exact Or.inr ⟨q, hq, hp⟩

theorem adjacencyExists_foldPaths (ps : List (List ASN)) (t : List NeighbourRow)
    (x y : ASN) :
    adjacencyExists (ps.foldl ingestPathAdj t) x y ↔
      adjacencyExists t x y ∨
        ∃ p ∈ ps, ∃ pr ∈ hopPairs p, pr.1 = x ∧ pr.2 = y ∧ pr.1 ≠ pr.2 := by
  induction ps generalizing t with
  | nil => simp
  | cons p rest ih =>
    rw [List.foldl_cons, ih]
    unfold ingestPathAdj
    rw [adjacencyExists_foldHops]
    simp only [List.mem_cons]
    constructor
    · rintro ((h | h) | ⟨q, hq, hp⟩)
      · exact Or.inl h
      · exact Or.inr ⟨p, Or.inl rfl, h⟩
      · exact Or.inr ⟨q, Or.inr hq, hp⟩
    · rintro (h | ⟨q, hq | hq, hp⟩)
      · exact Or.inl (Or.inl h)
      · subst hq; exact Or.inl (Or.inr hp)
      · exact Or.inr ⟨q, hq, hp⟩

theorem transitTrue_foldPaths (ps : List (List ASN)) (t : List NeighbourRow)
    (x y : ASN) :
    transitTrue (ps.foldl ingestPathAdj t) x y ↔
      transitTrue t x y ∨
        ∃ p ∈ ps, ∃ pr ∈ hopPairs p,
          pr.1 = x ∧ pr.2 = y ∧ pr.1 ≠ pr.2 ∧ p.getLastD 0 ≠ pr.2 := by
  induction ps generalizing t with
  | nil => simp
  | cons p rest ih =>
    rw [List.foldl_cons, ih]
    unfold ingestPathAdj
    rw [transitTrue_foldHops]
    simp only [List.mem_cons]
    constructor
    · rintro ((h | h) | ⟨q, hq, hp⟩)
      · exact Or.inl h
      · exact Or.inr ⟨p, Or.inl rfl, h⟩
      · exact Or.inr ⟨q, Or.inr hq, hp⟩
    · rintro (h | ⟨q, hq | hq, hp⟩)
      · exact Or.inl (Or.inl h)
      · subst hq; exact Or.inl (Or.inr hp)
      · exact Or.inr ⟨q, hq, hp⟩

/-- C6: after ingesting any finite sequence of announcement paths,
for every ordered AS pair `(X, Y)` with `X ≠ Y`: an adjacency row
exists iff some ingested path has consecutive hops `X` then `Y`; its
transit flag is set iff some such path additionally has `Y` different
from the path's final hop (origin); self-loop hop pairs create no
adjacency; and the transit flag, once set, survives ingestion of any
further records. -/
theorem adjacency_transit_ingestion (ps : List (List ASN)) (X Y : ASN) (hXY : X ≠ Y) :
    (adjacencyExists (ingestAllAdj ps) X Y ↔ ∃ p ∈ ps, (X, Y) ∈ hopPairs p) ∧
    (transitTrue (ingestAllAdj ps) X Y ↔
      ∃ p ∈ ps, (X, Y) ∈ hopPairs p ∧ p.getLastD 0 ≠ Y) ∧
    (∀ Z : ASN, ¬adjacencyExists (ingestAllAdj ps) Z Z) ∧
    (∀ qs : List (List ASN),
      transitTrue (ingestAllAdj ps) X Y → transitTrue (ingestAllAdj (ps ++ qs)) X Y) := by
  refine ⟨?_, ?_, ?_, ?_⟩
  · rw [ingestAllAdj, adjacencyExists_foldPaths]
    constructor
    · rintro (h | ⟨p, hp, pr, hpr, h1, h2, _⟩)
      · exact absurd h (by rintro ⟨r, hr, -⟩; exact absurd hr (List.not_mem_nil r))
      · refine ⟨p, hp, ?_⟩
        have : pr = (X, Y) := Prod.ext h1 h2
        rw [← this]; exact hpr
    · rintro ⟨p, hp, hpr⟩
      exact Or.inr ⟨p, hp, (X, Y), hpr, rfl, rfl, hXY⟩
  · rw [ingestAllAdj, transitTrue_foldPaths]
    constructor
    · rintro (h | ⟨p, hp, pr, hpr, h1, h2, _, h4⟩)
      · exact absurd h (by rintro ⟨r, hr, -⟩; exact absurd hr (List.not_mem_nil r))
      · refine ⟨p, hp, ?_, ?_⟩
        · have : pr = (X, Y) := Prod.ext h1 h2
          rw [← this]; exact hpr
        · rw [← h2]; exact h4
    · rintro ⟨p, hp, hpr, ho⟩
      exact Or.inr ⟨p, hp, (X, Y), hpr, rfl, rfl, hXY, ho⟩
  · intro Z
    rw [ingestAllAdj, adjacencyExists_foldPaths]
    rintro (h | ⟨p, hp, pr, hpr, h1, h2, h3⟩)
    · exact absurd h (by rintro ⟨r, hr, -⟩; exact absurd hr (List.not_mem_nil r))
    · exact h3 (h1.trans h2.symm)
  · intro qs h
    rw [ingestAllAdj, List.foldl_append]
    rw [ingestAllAdj] at h
    exact (transitTrue_foldPaths qs _ X Y).2 (Or.inl h)

/-- Witness for `adjacency_transit_ingestion` on the spec's §8
scenario: paths `[100, 200, 300]` and `[100, 250, 300]`; the adjacency
`(100, 200)` is transit-flagged because hop 200 is not the origin
300. -/
theorem adjacency_transit_ingestion_witness :
    (100 : ASN) ≠ 200 ∧
      (transitTrue (ingestAllAdj [[100, 200, 300], [100, 250, 300]]) 100 200 ↔
        ∃ p ∈ [[100, 200, 300], [100, 250, 300]],
          ((100 : ASN), (200 : ASN)) ∈ hopPairs p ∧ p.getLastD 0 ≠ 200) :=
  ⟨by decide,
    (adjacency_transit_ingestion [[100, 200, 300], [100, 250, 300]] 100 200 (by decide)).2.1⟩

/-! ## C1: exact-phase shortest-path selection -/

theorem exactScan_append (asn : ASN) (l : List (List ASN)) (x : List ASN) :
    exactScan asn (l ++ [x]) = exactStep asn (exactScan asn l) x := by
  rw [exactScan, exactScan, List.foldl_append]
  rfl

theorem exactStep_minlen (asn : ASN) (acc : ExactAcc) (raw : List ASN) :
    (exactStep asn acc raw).minlen = optMinN (truncateFrom asn raw).length acc.minlen := by
  unfold exactStep
  dsimp only
  split <;> rfl

theorem exactStep_cands (asn : ASN) (acc : ExactAcc) (raw : List ASN) :
    (exactStep asn acc raw).cands =
      if optLE (truncateFrom asn raw).length acc.minlen
      then acc.cands ++ [((truncateFrom asn raw).length, truncateFrom asn raw)]
      else acc.cands := by
  unfold exactStep
  dsimp only
  split <;> rfl

theorem optMinN_ne_none (n : Nat) (o : Option Nat) : optMinN n o ≠ none := by
  cases o <;> simp [optMinN]

theorem exactScan_minlen_none (asn : ASN) (l : List (List ASN)) :
    (exactScan asn l).minlen = none ↔ l = [] := by
  induction l using List.reverseRecOn with
  | nil => simp [exactScan]
  | append_singleton l x ih =>
    rw [exactScan_append, exactStep_minlen]
    constructor
    · intro h
      exact absurd h (optMinN_ne_none _ _)
    · intro h
      exact absurd h (by simp)

theorem exactScan_minlen_le (asn : ASN) (l : List (List ASN)) (m : Nat)
    (h : (exactScan asn l).minlen = some m) :
    ∀ p ∈ l, m ≤ (truncateFrom asn p).length := by
  induction l using List.reverseRecOn generalizing m with
  | nil => simp [exactScan, ExactAcc.minlen] at h
  | append_singleton l x ih =>
    rw [exactScan_append, exactStep_minlen] at h
    intro p hp
    rcases List.mem_append.1 hp with hp | hp
    · cases ho : (exactScan asn l).minlen with
      | none =>
        rw [(exactScan_minlen_none asn l).1 ho] at hp
        exact absurd hp (List.not_mem_nil p)
      | some m0 =>
        rw [ho] at h
        simp only [optMinN] at h
        injection h with h
        subst h
        exact Nat.le_trans (Nat.min_le_left _ _) (ih m0 ho p hp)
    · rw [List.mem_singleton] at hp
      subst hp
      cases ho : (exactScan asn l).minlen with
      | none =>
        rw [ho] at h
        simp only [optMinN] at h
        injection h with h
        subst h
        exact Nat.le_refl _
      | some m0 =>
        rw [ho] at h
        simp only [optMinN] at h
        injection h with h
        subst h
        exact Nat.min_le_right _ _

theorem exactScan_minlen_mem (asn : ASN) (l : List (List ASN)) (m : Nat)
    (h : (exactScan asn l).minlen = some m) :
    ∃ p ∈ l, (truncateFrom asn p).length = m := by
  induction l using List.reverseRecOn generalizing m with
  | nil => simp [exactScan, ExactAcc.minlen] at h
  | append_singleton l x ih =>
    rw [exactScan_append, exactStep_minlen] at h
    cases ho : (exactScan asn l).minlen with
    | none =>
      rw [ho] at h
      simp only [optMinN] at h
      injection h with h
      exact ⟨x, List.mem_append_right _ (List.mem_singleton_self _), h⟩
    | some m0 =>
      rw [ho] at h
      simp only [optMinN] at h
      injection h with h
      subst h
      by_cases hle : m0 ≤ (truncateFrom asn x).length
      · obtain ⟨p, hp, hpl⟩ := ih m0 ho
        refine ⟨p, List.mem_append_left _ hp, ?_⟩
        rw [hpl]
        omega
      · refine ⟨x, List.mem_append_right _ (List.mem_singleton_self _), ?_⟩
        omega

theorem exactScan_cands_mem (asn : ASN) (l : List (List ASN)) (n : Nat) (q : List ASN)
    (h : (n, q) ∈ (exactScan asn l).cands) :
    n = q.length ∧ ∃ p ∈ l, truncateFrom asn p = q := by
  induction l using List.reverseRecOn with
  | nil => simp [exactScan, ExactAcc.cands] at h
  | append_singleton l x ih =>
    rw [exactScan_append, exactStep_cands] at h
    have hnext : (n, q) ∈ (exactScan asn l).cands ∨
        (n, q) = ((truncateFrom asn x).length, truncateFrom asn x) := by
      by_cases hc : optLE (truncateFrom asn x).length (exactScan asn l).minlen = true
      · rw [if_pos hc] at h
        rcases List.mem_append.1 h with h | h
        · exact Or.inl h
        · exact Or.inr (List.mem_singleton.1 h)
      · rw [if_neg hc] at h
        exact Or.inl h
    rcases hnext with h | h
    · obtain ⟨hn, p, hp, hq⟩ := ih h
      exact ⟨hn, p, List.mem_append_left _ hp, hq⟩
    · injection h with h1 h2
      subst h2
      exact ⟨h1, x, List.mem_append_right _ (List.mem_singleton_self _), rfl⟩

theorem exactScan_cands_complete (asn : ASN) (l : List (List ASN)) (m : Nat)
    (h : (exactScan asn l).minlen = some m) (p : List ASN) (hp : p ∈ l)
    (hlen : (truncateFrom asn p).length = m) :
    (m, truncateFrom asn p) ∈ (exactScan asn l).cands := by
  induction l using List.reverseRecOn generalizing m with
  | nil => exact absurd hp (List.not_mem_nil p)
  | append_singleton l x ih =>
    rw [exactScan_append, exactStep_minlen] at h
    rw [exactScan_append, exactStep_cands]
    rcases List.mem_append.1 hp with hpl | hpx
    · have hne : l ≠ [] := by
        intro hnil
        rw [hnil] at hpl
        exact absurd hpl (List.not_mem_nil p)
      cases ho : (exactScan asn l).minlen with
      | none => exact absurd ((exactScan_minlen_none asn l).1 ho) hne
      | some m0 =>
        rw [ho] at h
        simp only [optMinN] at h
        injection h with h
        have hm0 : m0 ≤ (truncateFrom asn p).length := exactScan_minlen_le asn l m0 ho p hpl
        have hmm0 : m = m0 := by omega
        subst hmm0
        have hin := ih m ho hpl hlen
        split
        · exact List.mem_append_left _ hin
        · exact hin
    · rw [List.mem_singleton] at hpx
      subst hpx
      cases ho : (exactScan asn l).minlen with
      | none =>
        rw [ho] at h
        simp only [optMinN] at h
        injection h with h
        have hcond : optLE (truncateFrom asn p).length none = true := rfl
        rw [if_pos hcond]
        subst hlen
        exact List.mem_append_right _ (List.mem_singleton_self _)
      | some m0 =>
        rw [ho] at h
        simp only [optMinN] at h
        injection h with h
        have hxle : (truncateFrom asn p).length ≤ m0 := by omega
        have hcond : optLE (truncateFrom asn p).length (some m0) = true := by
          simpa [optLE] using hxle
        rw [if_pos hcond]
        subst hlen
        exact List.mem_append_right _ (List.mem_singleton_self _)

theorem mem_bucketOf (cands : List (Nat × List ASN)) (m : Nat) (q : List ASN) :
    q ∈ bucketOf (some m) cands ↔ (m, q) ∈ cands := by
  show q ∈ (cands.filter (fun c => c.1 == m)).map (fun c => c.2) ↔ _
  simp only [List.mem_map, List.mem_filter, beq_iff_eq]
  constructor
  · rintro ⟨⟨n, q'⟩, ⟨hc, h1⟩, h2⟩
    dsimp only at h1 h2
    subst h1; subst h2
    exact hc
  · intro hc
    exact ⟨(m, q), ⟨hc, rfl⟩, rfl⟩

/-- C1: for a resolved prefix and a source ASN with at least one
stored AS-path for that prefix containing the ASN as a hop, the exact
phase of `asn_paths_to_prefix` returns exactly the set of those paths,
each truncated to start at the first occurrence of the source ASN,
restricted to the paths of globally minimum hop count: every tied
shortest path is included and no returned path is longer than the
minimum. -/
theorem exact_phase_shortest (db : RouteDB) (net : Bytes) (plen : Nat) (asn : ASN)
    (hne : collectorPaths db net plen asn ≠ []) :
    ∀ q : List ASN,
      q ∈ exactPhasePaths db net plen asn ↔
        ((∃ p ∈ collectorPaths db net plen asn, truncateFrom asn p = q) ∧
          ∀ p ∈ collectorPaths db net plen asn,
            q.length ≤ (truncateFrom asn p).length) := by
  intro q
  have hacc : exactPhasePaths db net plen asn =
      bucketOf (exactScan asn (collectorPaths db net plen asn)).minlen
        (exactScan asn (collectorPaths db net plen asn)).cands := rfl
  rw [hacc]
  cases hm : (exactScan asn (collectorPaths db net plen asn)).minlen with
  | none => exact absurd ((exactScan_minlen_none asn _).1 hm) hne
  | some m =>
    rw [mem_bucketOf]
    constructor
    · intro hc
      obtain ⟨hn, p, hp, hq⟩ := exactScan_cands_mem asn _ m q hc
      refine ⟨⟨p, hp, hq⟩, ?_⟩
      intro p' hp'
      rw [← hn]
      exact exactScan_minlen_le asn _ m hm p' hp'
    · rintro ⟨⟨p, hp, hq⟩, hall⟩
      obtain ⟨p1, hp1, hp1l⟩ := exactScan_minlen_mem asn _ m hm
      have h1 : q.length ≤ m := hp1l ▸ hall p1 hp1
      have h2 : m ≤ q.length := hq ▸ exactScan_minlen_le asn _ m hm p hp
      have hql : (truncateFrom asn p).length = m := by rw [hq]; omega
      have := exactScan_cands_complete asn _ m hm p hp hql
      rw [hq] at this
      exact this

/-- Store for the C1 witness: the spec's §8 scenario, two stored
paths `[100, 200, 300]` and `[100, 250, 300]` for `10.0.0.0/24`. -/
def routeDbEx : RouteDB :=
  ⟨[⟨[10, 0, 0, 0], 24, [100, 200, 300]⟩, ⟨[10, 0, 0, 0], 24, [100, 250, 300]⟩], []⟩

/-- Witness for `exact_phase_shortest`: source 100 and the tied
shortest path `[100, 200, 300]` on the §8 scenario store. -/
theorem exact_phase_shortest_witness :
    collectorPaths routeDbEx [10, 0, 0, 0] 24 100 ≠ [] ∧
      ([100, 200, 300] ∈ exactPhasePaths routeDbEx [10, 0, 0, 0] 24 100 ↔
        ((∃ p ∈ collectorPaths routeDbEx [10, 0, 0, 0] 24 100,
            truncateFrom 100 p = [100, 200, 300]) ∧
          ∀ p ∈ collectorPaths routeDbEx [10, 0, 0, 0] 24 100,
            ([100, 200, 300] : List ASN).length ≤ (truncateFrom 100 p).length)) :=
  ⟨by decide, exact_phase_shortest routeDbEx [10, 0, 0, 0] 24 100 (by decide) [100, 200, 300]⟩

/-! ## C2 / C4: fallback phase exclusivity and bounded recursion -/

theorem asnPathsToPfx_succ (db : RouteDB) (net : Bytes) (plen : Nat) (fuel : Nat)
    (asn : ASN) (seen : Finset ASN) :
    asnPathsToPfx db net plen (fuel + 1) asn seen =
      asnStep db net plen (asnPathsToPfx db net plen fuel) asn seen := rfl

theorem exactPhasePaths_def (db : RouteDB) (net : Bytes) (plen : Nat) (asn : ASN) :
    exactPhasePaths db net plen asn =
      bucketOf (exactScan asn (collectorPaths db net plen asn)).minlen
        (exactScan asn (collectorPaths db net plen asn)).cands := rfl

theorem fbStep_guessed_mono (asn : ASN) (acc : FBAcc) (r : PResult) (a : ASN)
    (ha : a ∈ acc.guessed) : a ∈ (fbStep asn acc r).guessed := by
  cases hp : r.paths with
  | nil =>
    unfold fbStep
    rw [hp]
    exact ha
  | cons p ps =>
    unfold fbStep
    rw [hp]
    dsimp only
    split
    · exact List.mem_append_left _ ha
    · exact List.mem_append_left _ ha

theorem fbLoop_guessed_mono (rec : ASN → Finset ASN → Option PResult) (asn : ASN)
    (seen nextSeen : Finset ASN) (l : List ASN) (acc acc' : FBAcc)
    (h : fbLoop rec asn seen nextSeen l acc = some acc') (a : ASN)
    (ha : a ∈ acc.guessed) : a ∈ acc'.guessed := by
  induction l generalizing acc with
  | nil =>
    rw [fbLoop] at h
    injection h with h
    rw [← h]
    exact ha
  | cons u rest ih =>
    rw [fbLoop] at h
    by_cases hu : u ∈ seen
    · rw [if_pos hu] at h
      exact ih acc h ha
    · rw [if_neg hu] at h
      cases hr : rec u nextSeen with
      | none =>
        rw [hr] at h
        exact absurd h (by simp)
      | some r =>
        rw [hr] at h
        exact ih (fbStep asn acc r) h (fbStep_guessed_mono asn acc r a ha)

theorem fbLoop_isSome (rec : ASN → Finset ASN → Option PResult) (asn : ASN)
    (seen nextSeen : Finset ASN) (l : List ASN) (acc : FBAcc)
    (hrec : ∀ u ∈ l, u ∉ seen → (rec u nextSeen).isSome = true) :
    (fbLoop rec asn seen nextSeen l acc).isSome = true := by
  induction l generalizing acc with
  | nil => rfl
  | cons u rest ih =>
    rw [fbLoop]
    by_cases hu : u ∈ seen
    · rw [if_pos hu]
      exact ih acc (fun v hv => hrec v (List.mem_cons_of_mem _ hv))
    · rw [if_neg hu]
      cases hr : rec u nextSeen with
      | none =>
        have := hrec u (List.mem_cons_self _ _) hu
        rw [hr] at this
        exact absurd this (by simp)
      | some r =>
        exact ih (fbStep asn acc r) (fun v hv => hrec v (List.mem_cons_of_mem _ hv))

/-- C4: for every adjacency relation (cycles and over-cap chains
included) and every query, the dn42 fallback recursion terminates:
fuel `_MAX_SEEN_ASNS + 2` always suffices starting from an empty seen
set (and, in general, any fuel above `_MAX_SEEN_ASNS + 1 - |seen|`),
because each recursive call strictly grows the seen set and the
`len(seen_asns) <= _MAX_SEEN_ASNS` guard stops expansion past the cap;
when the cap is exceeded the call returns the candidates found so far
— for a source with no exact data, the empty path set with the source
marked guessed — rather than raising an error. -/
theorem dn42_fallback_terminates :
    (∀ (db : RouteDB) (net : Bytes) (plen : Nat) (asn : ASN) (seen : Finset ASN)
        (fuel : Nat), maxSeenAsns + 1 - seen.card < fuel →
        (asnPathsToPfx db net plen fuel asn seen).isSome = true) ∧
    (∀ (db : RouteDB) (net : Bytes) (plen : Nat) (asn : ASN) (seen : Finset ASN)
        (fuel : Nat), maxSeenAsns < seen.card →
        collectorPaths db net plen asn = [] →
        asnPathsToPfx db net plen (fuel + 1) asn seen = some ⟨[], [asn]⟩) := by
  constructor
  · intro db net plen
    have main : ∀ (fuel : Nat) (asn : ASN) (seen : Finset ASN),
        maxSeenAsns + 1 - seen.card < fuel →
        (asnPathsToPfx db net plen fuel asn seen).isSome = true := by
      intro fuel
      induction fuel with
      | zero =>
        intro asn seen h
        exact absurd h (Nat.not_lt_zero _)
      | succ fuel ih =>
        intro asn seen h
        rw [asnPathsToPfx_succ]
        unfold asnStep
        cases hm : (exactScan asn (collectorPaths db net plen asn)).minlen with
        | some m => rfl
        | none =>
          dsimp only
          by_cases hcard : seen.card ≤ maxSeenAsns
          · rw [if_pos hcard]
            have hrec : ∀ u ∈ possibleTransits db asn, u ∉ seen →
                (asnPathsToPfx db net plen fuel u
                  (seen ∪ (possibleTransits db asn).toFinset ∪ {asn})).isSome = true := by
              intro u hu hnu
              apply ih
              have hsub : seen ⊆ seen ∪ (possibleTransits db asn).toFinset ∪ {asn} :=
                Finset.subset_union_left.trans Finset.subset_union_left
              have hmem : u ∈ seen ∪ (possibleTransits db asn).toFinset ∪ {asn} :=
                Finset.mem_union_left _
                  (Finset.mem_union_right _ (List.mem_toFinset.2 hu))
              have hlt : seen.card <
                  (seen ∪ (possibleTransits db asn).toFinset ∪ {asn}).card := by
                apply Finset.card_lt_card
                exact ⟨hsub, fun hss => hnu (hss hmem)⟩
              omega
            have hfb := fbLoop_isSome (asnPathsToPfx db net plen fuel) asn seen
              (seen ∪ (possibleTransits db asn).toFinset ∪ {asn})
              (possibleTransits db asn) ⟨none, [], [asn]⟩ hrec
            cases hfbe : fbLoop (asnPathsToPfx db net plen fuel) asn seen
                (seen ∪ (possibleTransits db asn).toFinset ∪ {asn})
                (possibleTransits db asn) ⟨none, [], [asn]⟩ with
            | none =>
              rw [hfbe] at hfb
              exact absurd hfb (by simp)
            | some fb => rfl
          · rw [if_neg hcard]
            rfl
    intro asn seen fuel
    exact main fuel asn seen
  · intro db net plen asn seen fuel hcard hcoll
    rw [asnPathsToPfx_succ]
    unfold asnStep
    have hm : (exactScan asn (collectorPaths db net plen asn)).minlen = none :=
      (exactScan_minlen_none asn _).2 hcoll
    rw [hm]
    dsimp only
    rw [if_neg (by omega : ¬seen.card ≤ maxSeenAsns)]

/-- Adjacency store for the termination witness: a pure chain
`0 → 1 → ... → 60`, longer than the exploration cap, and no stored
paths at all. -/
def chainDbEx : RouteDB := ⟨[], (List.range 60).map (fun i => ⟨i + 1, i, false⟩)⟩

/-- Witness for `dn42_fallback_terminates`: resolution over the
over-cap chain terminates with fuel 52, and a call that arrives with
51 already-seen ASNs returns the empty candidate set at once. -/
theorem dn42_fallback_terminates_witness :
    (maxSeenAsns + 1 - (∅ : Finset ASN).card < 52 ∧
      (asnPathsToPfx chainDbEx [10, 0, 0, 0] 24 52 0 ∅).isSome = true) ∧
    (maxSeenAsns < (Finset.range 51).card ∧
      collectorPaths chainDbEx [10, 0, 0, 0] 24 0 = [] ∧
      asnPathsToPfx chainDbEx [10, 0, 0, 0] 24 (7 + 1) 0 (Finset.range 51) =
        some ⟨[], [0]⟩) :=
  ⟨⟨by decide, dn42_fallback_terminates.1 chainDbEx [10, 0, 0, 0] 24 0 ∅ 52 (by decide)⟩,
    ⟨by decide, by decide,
      dn42_fallback_terminates.2 chainDbEx [10, 0, 0, 0] 24 0 (Finset.range 51) 7
        (by decide) (by decide)⟩⟩

/-- C2: in a single per-source resolution, the fallback (guessed)
phase runs only when the exact phase found no stored AS-path for the
prefix containing the source: when exact data exists the result is
exactly the exact-phase path set with an empty guessed set, and when
none exists the result is marked guessed (the source ASN itself is in
the guessed set), so a source never yields both a non-empty
confirmed-path set and a non-empty guessed set. -/
theorem exact_fallback_exclusive (db : RouteDB) (net : Bytes) (plen : Nat)
    (fuel : Nat) (asn : ASN) (seen : Finset ASN) (r : PResult)
    (h : asnPathsToPfx db net plen (fuel + 1) asn seen = some r) :
    (collectorPaths db net plen asn ≠ [] →
      r = ⟨exactPhasePaths db net plen asn, []⟩) ∧
    (collectorPaths db net plen asn = [] → asn ∈ r.guessed) := by
  rw [asnPathsToPfx_succ] at h
  unfold asnStep at h
  constructor
  · intro hne
    cases hm : (exactScan asn (collectorPaths db net plen asn)).minlen with
    | none => exact absurd ((exactScan_minlen_none asn _).1 hm) hne
    | some m =>
      rw [hm] at h
      injection h with h
      rw [← h, exactPhasePaths_def, hm]
  · intro hnil
    have hm : (exactScan asn (collectorPaths db net plen asn)).minlen = none :=
      (exactScan_minlen_none asn _).2 hnil
    rw [hm] at h
    dsimp only at h
    by_cases hcard : seen.card ≤ maxSeenAsns
    · rw [if_pos hcard] at h
      cases hfbe : fbLoop (asnPathsToPfx db net plen fuel) asn seen
          (seen ∪ (possibleTransits db asn).toFinset ∪ {asn})
          (possibleTransits db asn) ⟨none, [], [asn]⟩ with
      | none =>
        rw [hfbe] at h
        exact absurd h (by simp)
      | some fb =>
        rw [hfbe] at h
        injection h with h
        rw [← h]
        exact fbLoop_guessed_mono (asnPathsToPfx db net plen fuel) asn seen
          (seen ∪ (possibleTransits db asn).toFinset ∪ {asn})
          (possibleTransits db asn) ⟨none, [], [asn]⟩ fb hfbe asn
          (List.mem_singleton_self asn)
    · rw [if_neg hcard] at h
      injection h with h
      rw [← h]
      exact List.mem_singleton_self asn

/-- Store for the C2 witness: `AS1` has an exact path `[1, 300]` to
the prefix, `AS0` has none and guesses through its upstream `AS1`. -/
def guessDbEx : RouteDB := ⟨[⟨[10, 0, 0, 0], 24, [1, 300]⟩], [⟨1, 0, false⟩]⟩

/-- Witness for `exact_fallback_exclusive`: source `AS0` has no exact
data, so its result is guessed (`0` is in the guessed set). -/
theorem exact_fallback_exclusive_witness :
    collectorPaths guessDbEx [10, 0, 0, 0] 24 0 = [] ∧
      (0 : ASN) ∈ (PResult.mk [[0, 1, 300]] [0]).guessed :=
  ⟨by decide,
    (exact_fallback_exclusive guessDbEx [10, 0, 0, 0] 24 51 0 ∅
        (PResult.mk [[0, 1, 300]] [0]) (by decide)).2 (by decide)⟩

/-! ## C8: AS-path storage round-trip and deduplication -/

theorem hasKey_iff (t : List PathRow) (pid : Int) (j : Nat) :
    hasKey t pid j = true ↔ ∃ r ∈ rowsFor t pid, r.listIndex = j := by
  simp only [hasKey, rowsFor, List.any_eq_true, List.mem_filter, Bool.and_eq_true,
    beq_iff_eq]
  constructor
  · rintro ⟨r, hr, h1, h2⟩
    exact ⟨r, ⟨hr, h1⟩, h2⟩
  · rintro ⟨r, ⟨hr, h1⟩, h2⟩
    exact ⟨r, hr, h1, h2⟩

theorem rowsFor_insert_ne (t : List PathRow) (pid pid' : Int) (i : Nat) (a : ASN)
    (h : pid ≠ pid') :
    rowsFor (insertPathRow t pid' i a) pid = rowsFor t pid := by
  unfold insertPathRow
  split
  · rfl
  · rw [rowsFor, List.filter_append, rowsFor]
    have hz : List.filter (fun r => r.pathId == pid) [(⟨pid', i, a⟩ : PathRow)] = [] := by
      simp [Ne.symm h]
    rw [hz, List.append_nil]

theorem rowsFor_insertHops_ne (pid pid' : Int) (t : List PathRow) (i : Nat)
    (s : List ASN) (h : pid ≠ pid') :
    rowsFor (insertHops pid' t i s) pid = rowsFor t pid := by
  induction s generalizing t i with
  | nil => rfl
  | cons a rest ih =>
    rw [insertHops, ih, rowsFor_insert_ne t pid pid' i a h]

theorem rowsFor_insertHops_fresh (pid : Int) (t : List PathRow) (i : Nat) (s : List ASN)
    (hfree : ∀ j, i ≤ j → ¬hasKey t pid j = true) :
    rowsFor (insertHops pid t i s) pid = rowsFor t pid ++ hopRows pid i s := by
  induction s generalizing t i with
  | nil => simp [insertHops, hopRows]
  | cons a rest ih =>
    rw [insertHops, hopRows]
    have hins : insertPathRow t pid i a = t ++ [⟨pid, i, a⟩] := by
      unfold insertPathRow
      rw [if_neg (hfree i (Nat.le_refl i))]
    rw [hins]
    have hfree' : ∀ j, i + 1 ≤ j → ¬hasKey (t ++ [⟨pid, i, a⟩]) pid j = true := by
      intro j hj hk
      simp only [hasKey, List.any_append, Bool.or_eq_true] at hk
      rcases hk with hk | hk
      · exact hfree j (by omega) hk
      · simp only [List.any_cons, List.any_nil, Bool.or_false, Bool.and_eq_true,
          beq_iff_eq] at hk
        omega
    have hih := ih (t ++ [(⟨pid, i, a⟩ : PathRow)]) (i + 1) hfree'
    rw [hih]
    rw [rowsFor, List.filter_append]
    have hone : List.filter (fun r => r.pathId == pid) [(⟨pid, i, a⟩ : PathRow)] =
        [⟨pid, i, a⟩] := by simp
    rw [hone, rowsFor, List.append_assoc, List.singleton_append]

theorem insertHops_full (pid : Int) (t : List PathRow) (i : Nat) (s : List ASN)
    (hkeys : ∀ j, i ≤ j → j < i + s.length → hasKey t pid j = true) :
    insertHops pid t i s = t := by
  induction s generalizing i with
  | nil => rfl
  | cons a rest ih =>
    rw [insertHops]
    have hkey : hasKey t pid i = true :=
      hkeys i (Nat.le_refl i) (by simp only [List.length_cons]; omega)
    have hins : insertPathRow t pid i a = t := by
      unfold insertPathRow
      rw [if_pos hkey]
    rw [hins]
    apply ih
    intro j h1 h2
    refine hkeys j (by omega) ?_
    simp only [List.length_cons]
    omega

theorem hopRows_key_mem (pid : Int) (s : List ASN) :
    ∀ (i j : Nat), j < s.length → ∃ r ∈ hopRows pid i s, r.listIndex = i + j := by
  induction s with
  | nil => intro i j hj; simp at hj
  | cons a rest ih =>
    intro i j hj
    cases j with
    | zero => exact ⟨⟨pid, i, a⟩, List.mem_cons_self _ _, by simp⟩
    | succ j' =>
      obtain ⟨r, hr, hrl⟩ := ih (i + 1) j' (by simp only [List.length_cons] at hj; omega)
      exact ⟨r, List.mem_cons_of_mem _ hr, by omega⟩

theorem hasKey_of_full (t : List PathRow) (pid : Int) (s : List ASN)
    (hfull : rowsFor t pid = hopRows pid 0 s) (j : Nat) (hj : j < s.length) :
    hasKey t pid j = true := by
  rw [hasKey_iff, hfull]
  obtain ⟨r, hr, hrl⟩ := hopRows_key_mem pid s 0 j hj
  exact ⟨r, hr, by omega⟩

theorem hasKey_of_empty (t : List PathRow) (pid : Int)
    (hempty : rowsFor t pid = []) (j : Nat) : ¬hasKey t pid j = true := by
  rw [hasKey_iff, hempty]
  rintro ⟨r, hr, -⟩
  exact absurd hr (List.not_mem_nil r)

theorem ingest_preserves (h : List ASN → Int) (s : List ASN) (ss : List (List ASN))
    (t : List PathRow) (hinj : ∀ u ∈ ss, h u = h s → u = s)
    (hinv : rowsFor t (h s) = [] ∨ rowsFor t (h s) = hopRows (h s) 0 s) :
    (rowsFor (ss.foldl (ingestPathRows h) t) (h s) = [] ∨
      rowsFor (ss.foldl (ingestPathRows h) t) (h s) = hopRows (h s) 0 s) ∧
    (s ∈ ss → rowsFor (ss.foldl (ingestPathRows h) t) (h s) = hopRows (h s) 0 s) ∧
    (rowsFor t (h s) = hopRows (h s) 0 s →
      rowsFor (ss.foldl (ingestPathRows h) t) (h s) = hopRows (h s) 0 s) := by
  induction ss generalizing t with
  | nil =>
    refine ⟨hinv, ?_, ?_⟩
    · intro hs; exact absurd hs (List.not_mem_nil s)
    · intro hfull; exact hfull
  | cons u rest ih =>
    rw [List.foldl_cons]
    have hstep_full : h u = h s →
        rowsFor (ingestPathRows h t u) (h s) = hopRows (h s) 0 s := by
      intro hu
      have hus : u = s := hinj u (List.mem_cons_self _ _) hu
      rw [ingestPathRows, hus]
      rcases hinv with hempty | hfull
      · rw [rowsFor_insertHops_fresh (h s) t 0 s
          (fun j _ => hasKey_of_empty t (h s) hempty j), hempty, List.nil_append]
      · rw [insertHops_full (h s) t 0 s
          (fun j _ hj => hasKey_of_full t (h s) s hfull j (by omega))]
        exact hfull
    have hstep_ne : h u ≠ h s →
        rowsFor (ingestPathRows h t u) (h s) = rowsFor t (h s) := by
      intro hu
      rw [ingestPathRows]
      exact rowsFor_insertHops_ne (h s) (h u) t 0 u (fun hc => hu hc.symm)
    have hinv' : rowsFor (ingestPathRows h t u) (h s) = [] ∨
        rowsFor (ingestPathRows h t u) (h s) = hopRows (h s) 0 s := by
      by_cases hu : h u = h s
      · exact Or.inr (hstep_full hu)
      · rw [hstep_ne hu]; exact hinv
    have hfullpres : rowsFor t (h s) = hopRows (h s) 0 s →
        rowsFor (ingestPathRows h t u) (h s) = hopRows (h s) 0 s := by
      intro hfull
      by_cases hu : h u = h s
      · exact hstep_full hu
      · rw [hstep_ne hu]; exact hfull
    have hrec := ih (ingestPathRows h t u)
      (fun v hv hvh => hinj v (List.mem_cons_of_mem _ hv) hvh) hinv'
    refine ⟨hrec.1, ?_, ?_⟩
    · intro hs
      rcases List.mem_cons.1 hs with heq | hs
      · exact hrec.2.2 (hstep_full (by rw [← heq]))
      · exact hrec.2.1 hs
    · intro hfull
      exact hrec.2.2 (hfullpres hfull)

theorem hopRows_chain (pid : Int) (s : List ASN) :
    ∀ i : Nat, List.Chain' (fun a b : PathRow => a.listIndex ≤ b.listIndex)
      (hopRows pid i s) := by
  induction s with
  | nil => intro i; exact List.chain'_nil
  | cons a rest ih =>
    intro i
    rw [hopRows]
    cases hres : rest with
    | nil => simp [hopRows]
    | cons b rest' =>
      rw [hopRows]
      refine List.chain'_cons.2 ⟨by dsimp only; omega, ?_⟩
      have := ih (i + 1)
      rw [hres, hopRows] at this
      exact this

theorem insertSorted_head_le (x : PathRow) (l : List PathRow)
    (hle : ∀ y ∈ l.head?, x.listIndex ≤ y.listIndex) :
    insertSorted x l = x :: l := by
  cases l with
  | nil => rfl
  | cons y ys =>
    rw [insertSorted, if_pos (hle y rfl)]

theorem sortByIndex_sorted_id (l : List PathRow)
    (hl : List.Chain' (fun a b : PathRow => a.listIndex ≤ b.listIndex) l) :
    sortByIndex l = l := by
  induction l with
  | nil => rfl
  | cons x xs ih =>
    rw [sortByIndex, ih hl.tail]
    apply insertSorted_head_le
    intro y hy
    cases xs with
    | nil => simp at hy
    | cons z zs =>
      obtain rfl : z = y := by simpa using hy
      exact (List.chain'_cons.1 hl).1

theorem hopRows_map_asn (pid : Int) (s : List ASN) :
    ∀ i : Nat, (hopRows pid i s).map (fun r => r.asn) = s := by
  induction s with
  | nil => intro i; rfl
  | cons a rest ih =>
    intro i
    rw [hopRows, List.map_cons, ih (i + 1)]

/-- C8: after ingesting a finite sequence of announcements whose hash
identifiers do not collide, reading back the stored AS-path identified
by the content hash of an ingested hop sequence `s`, ordered by stored
hop index, yields exactly `s`; and re-ingesting an announcement with
the same hop sequence leaves the `Paths` table unchanged — the two
announcements share one AS-Path record. -/
theorem path_roundtrip_dedup (h : List ASN → Int) (ss : List (List ASN)) (s : List ASN)
    (hmem : s ∈ ss) (hinj : ∀ u ∈ ss, h u = h s → u = s) :
    get_path (ingestAllPaths h ss) (h s) none = s ∧
      ingestPathRows h (ingestAllPaths h ss) s = ingestAllPaths h ss := by
  have hfull := (ingest_preserves h s ss [] hinj (Or.inl rfl)).2.1 hmem
  have hfull' : rowsFor (ingestAllPaths h ss) (h s) = hopRows (h s) 0 s := hfull
  constructor
  · show (sortByIndex (rowsFor (ingestAllPaths h ss) (h s))).map (fun r => r.asn) = s
    rw [hfull', sortByIndex_sorted_id _ (hopRows_chain (h s) s 0), hopRows_map_asn]
  · show insertHops (h s) (ingestAllPaths h ss) 0 s = ingestAllPaths h ss
    exact insertHops_full (h s) _ 0 s
      (fun j _ hj => hasKey_of_full _ (h s) s hfull' j (by omega))

/-- Witness for `path_roundtrip_dedup`: one announcement
`[100, 200, 300]` under a concrete (trivially collision-free on this
input) hash. -/
theorem path_roundtrip_dedup_witness :
    ([100, 200, 300] : List ASN) ∈ [[100, 200, 300]] ∧
      get_path (ingestAllPaths (fun _ => (0 : Int)) [[100, 200, 300]]) 0 none =
        [100, 200, 300] ∧
      ingestPathRows (fun _ => (0 : Int))
          (ingestAllPaths (fun _ => (0 : Int)) [[100, 200, 300]]) [100, 200, 300] =
        ingestAllPaths (fun _ => (0 : Int)) [[100, 200, 300]] :=
  ⟨by decide,
    (path_roundtrip_dedup (fun _ => 0) [[100, 200, 300]] [100, 200, 300]
      (by decide) (by decide)).1,
    (path_roundtrip_dedup (fun _ => 0) [[100, 200, 300]] [100, 200, 300]
      (by decide) (by decide)).2⟩

end Routegraphs
